import Mathlib

/-!
# ModuleEnvironment.cpp: publishing IIS request data as environment variables

A shallow embedding of `src/Servers/IIS/AspNetCoreModuleV2/AspNetCore/ModuleEnvironment.cpp`:
`GetIISVersion`, `ToVirtualPath` and `SetApplicationEnvironmentVariables`, followed by the
properties established about them.

Conventions of the embedding.
* `std::wstring` and `PCWSTR` text is the list of its characters (`wstring`).
* `std::wstring::npos` is `none`; a found index is `some i`.
* A thrown `std::out_of_range` is the result `none` of an `Option`-valued function.
* `DWORD` values are natural numbers below `2 ^ 32`; the `(int)` cast is `castInt`.
* The process environment is a map from names to optional values, passed explicitly.
-/

namespace ModuleEnvironment

/-! ## Text and the standard-library operations used by the source -/

/-- Wide-character text: the sequence of characters of a `std::wstring` or of a
NUL-terminated `PCWSTR` (terminator excluded). -/
abbrev wstring := List Char

/-- Left-to-right search for `ch` in the characters `rest`, where the head of `rest` has
index `i` in the searched text. -/
def findAux (ch : Char) : List Char → Nat → Option Nat
  | [], _ => none
  | c :: cs, i => if c = ch then some i else findAux ch cs (i + 1)

/-- Model of `std::wstring::find(ch, pos)`: the least index `i ≥ pos` holding `ch`,
or `none` (for `npos`) when there is none. -/
def find (s : wstring) (ch : Char) (pos : Nat) : Option Nat :=
  findAux ch (s.drop pos) pos

/-- Model of `std::wstring::substr(pos)`: the characters from index `pos` to the end;
`none` (for the `std::out_of_range` exception) when `pos` exceeds the length. -/
def substr (s : wstring) (pos : Nat) : Option wstring :=
  if pos ≤ s.length then some (s.drop pos) else none

/-- Unpadded decimal digits of a natural number, most significant first. -/
def decimal (n : Nat) : wstring :=
  Nat.toDigits 10 n

/-- Model of the stream insertion `version << i` for an `int` in the classic locale: an optional
minus sign followed by the decimal digits of the magnitude. -/
def streamInt (i : Int) : wstring :=
  if i < 0 then '-' :: decimal i.natAbs else decimal i.natAbs

/-- Model of `std::to_wstring` on an unsigned value. -/
def to_wstring (n : Nat) : wstring :=
  decimal n

/-- The conversion `(int)x` of an unsigned 32-bit value: reinterpretation in two's complement. -/
def castInt (x : Nat) : Int :=
  if x % 2 ^ 32 < 2 ^ 31 then ((x % 2 ^ 32 : Nat) : Int) else ((x % 2 ^ 32 : Nat) : Int) - 2 ^ 32

/-! ## `GetIISVersion` -/

/-- Embedding of `GetIISVersion`; the global `dwIISServerVersion` (a `DWORD`) is passed
as an argument. -/
def GetIISVersion (dwIISServerVersion : Nat) : wstring :=
  let major := castInt (dwIISServerVersion >>> 16)
  let minor := castInt (dwIISServerVersion &&& 0xffff)
  streamInt major ++ ['.'] ++ streamInt minor

/-! ## `ToVirtualPath` -/

/-- The `while (segments != 3 && position != npos)` loop of `ToVirtualPath`, started in the
state `(segments, position)`; returns the state in which the loop exits. -/
def scanLoop (configurationPath : wstring) (segments : Nat) (position : Option Nat) :
    Nat × Option Nat :=
  match position with
  | none => (segments, none)
  | some p =>
    if segments ≠ 3 then
      scanLoop configurationPath (segments + 1) (find configurationPath '/' (p + 1))
    else (segments, some p)
termination_by (match position with
  | none => 0
  | some p => configurationPath.length - p + 1)
decreasing_by
  simp_wf
  have key : ∀ (l : List Char) (i q : Nat),
      findAux '/' l i = some q → i ≤ q ∧ q < i + l.length := by
    intro l
    induction l with
    | nil => intro i q h; simp [findAux] at h
    | cons c cs ih =>
      intro i q h
      simp only [findAux] at h
      split at h
      · simp at h; subst h; simp
      · have := ih _ _ h
        simp only [List.length_cons]
        omega
  cases h : find configurationPath '/' (p + 1) with
  | none => simp
  | some q =>
    have hq := key _ _ _ h
    simp only [List.length_drop] at hq
    simp only
    omega

/-- Embedding of `ToVirtualPath`. -/
def ToVirtualPath (configurationPath : wstring) : Option wstring :=
  match (scanLoop configurationPath 0 (find configurationPath '/' 0)).2 with
  | some position => substr configurationPath position
  | none => some ['/']

/-! ## `SetApplicationEnvironmentVariables` -/

/-- The part of `IHttpSite` read by the source: the results of its accessors. -/
structure IHttpSite where
  GetSiteName : wstring
  GetSiteId : Nat

/-- The part of `IHttpApplication` read by the source: the results of its accessors. -/
structure IHttpApplication where
  GetAppConfigPath : wstring
  GetApplicationId : wstring
  GetApplicationPhysicalPath : wstring

/-- The part of `IHttpContext` read by the source: the results of its accessors. -/
structure IHttpContext where
  GetSite : IHttpSite
  GetApplication : IHttpApplication

/-- The process environment: each variable name is unset (`none`) or holds a value. -/
abbrev Environment := wstring → Option wstring

/-- Modelled from the spec: the environment variable store is an external key/value store;
`SetEnvironmentVariable name value` makes `name` hold `value`, overwriting any prior value,
and touches no other name. -/
def SetEnvironmentVariable (lpName : wstring) (lpValue : wstring) (env : Environment) :
    Environment :=
  fun k => if k = lpName then some lpValue else env k

/-- Embedding of `SetApplicationEnvironmentVariables`: the environment after the seven
writes, in source order; `none` if `ToVirtualPath` throws. -/
def SetApplicationEnvironmentVariables (pHttpContext : IHttpContext) (dwIISServerVersion : Nat)
    (env : Environment) : Option Environment :=
  let env := SetEnvironmentVariable "ANCM_IIS_VERSION".toList (GetIISVersion dwIISServerVersion) env
  let site := pHttpContext.GetSite
  let env := SetEnvironmentVariable "ANCM_SITE_NAME".toList site.GetSiteName env
  let env := SetEnvironmentVariable "ANCM_SITE_ID".toList (to_wstring site.GetSiteId) env
  let app := pHttpContext.GetApplication
  let env := SetEnvironmentVariable "ANCM_APP_CONFIG_PATH".toList app.GetAppConfigPath env
  let env := SetEnvironmentVariable "ANCM_APPLICATION_ID".toList app.GetApplicationId env
  let env := SetEnvironmentVariable "ANCM_APPLICATION_PHYSICAL_PATH".toList
    app.GetApplicationPhysicalPath env
  match ToVirtualPath app.GetAppConfigPath with
  | some virtualPath =>
    some (SetEnvironmentVariable "ANCM_APPPLICATION_VIRTUAL_PATH".toList virtualPath env)
  | none => none

/-! ## Reference definitions used to state the properties -/

/-- Structural description of the text `ToVirtualPath` selects from the characters `l`:
the suffix of `l` beginning at its `(k + 1)`-th `/`, or `"/"` when `l` has at most `k`
occurrences of `/`. -/
def slashSuffixOr : Nat → List Char → List Char
  | _, [] => ['/']
  | k, c :: cs =>
    if c = '/' then
      match k with
      | 0 => c :: cs
      | k + 1 => slashSuffixOr k cs
    else slashSuffixOr k cs

/-- The suffix of `l` that begins at its `n`-th `/` character (counted from 1); empty when
`l` has fewer than `n` occurrences of `/`. -/
def suffixFromNthSlash : Nat → List Char → List Char
  | _, [] => []
  | n, c :: cs =>
    if c = '/' then
      if n ≤ 1 then c :: cs else suffixFromNthSlash (n - 1) cs
    else suffixFromNthSlash n cs

/-- Reference definition of the virtual path: with at least four `/` characters, the suffix
beginning at the fourth `/`; otherwise exactly `"/"`. -/
def ToVirtualPathReference (path : wstring) : wstring :=
  if 4 ≤ path.count '/' then suffixFromNthSlash 4 path else ['/']

/-- The seven variable names written by `SetApplicationEnvironmentVariables`. -/
def ancmKeys : List wstring :=
  ["ANCM_IIS_VERSION".toList, "ANCM_SITE_NAME".toList, "ANCM_SITE_ID".toList,
   "ANCM_APP_CONFIG_PATH".toList, "ANCM_APPLICATION_ID".toList,
   "ANCM_APPLICATION_PHYSICAL_PATH".toList, "ANCM_APPPLICATION_VIRTUAL_PATH".toList]

/-- The request context of the end-to-end example. -/
def endToEndContext : IHttpContext where
  GetSite := { GetSiteName := "Default Web Site".toList, GetSiteId := 1 }
  GetApplication :=
    { GetAppConfigPath := "MACHINE/WEBROOT/APPHOST/Default Web Site/MyApp".toList
      GetApplicationId := "APP1".toList
      GetApplicationPhysicalPath := "C:\\inetpub\\wwwroot\\MyApp".toList }

/-- The environment in which no variable is set. -/
def emptyEnvironment : Environment :=
  fun _ => none

/-! ## Instrumented scan and decimal parsing, used to state the safety and unambiguity properties -/

/-- The loop of `ToVirtualPath` run with an iteration budget and a log: `scanLoopTrace path
budget segments position` performs the same steps as `scanLoop`, allows at most `budget`
executions of the loop body, and returns the exit state together with the list of search
start indices `position + 1` passed to `find`, in order; `none` when the budget is used up
before the loop exits. -/
def scanLoopTrace (configurationPath : wstring) :
    Nat → Nat → Option Nat → Option ((Nat × Option Nat) × List Nat)
  | _, segments, none => some ((segments, none), [])
  | 0, segments, some p =>
    if segments ≠ 3 then none else some ((segments, some p), [])
  | budget + 1, segments, some p =>
    if segments ≠ 3 then
      (scanLoopTrace configurationPath budget (segments + 1)
        (find configurationPath '/' (p + 1))).map (fun r => (r.1, (p + 1) :: r.2))
    else some ((segments, some p), [])

/-- Reading of a digit sequence as a decimal number, continuing from the value `acc`;
`none` when a character is not a decimal digit. -/
def parseDecimalAux : Nat → List Char → Option Nat
  | acc, [] => some acc
  | acc, c :: cs =>
    if c.isDigit then parseDecimalAux (acc * 10 + (c.toNat - '0'.toNat)) cs else none

/-- Parsing of a non-empty sequence of decimal digits; `none` on the empty text and on any
text holding another character. -/
def parseDecimal (text : wstring) : Option Nat :=
  match text with
  | [] => none
  | c :: cs => parseDecimalAux 0 (c :: cs)

/-- The characters of `text` before its first `.`. -/
def textBeforeDot (text : wstring) : wstring :=
  text.takeWhile (fun c => c != '.')

/-- The characters of `text` after its first `.`. -/
def textAfterDot (text : wstring) : wstring :=
  (text.dropWhile (fun c => c != '.')).drop 1

/-! ## Lemmas on the scan -/

theorem find_eq_findAux_of_drop {s : wstring} {i : Nat} {l : List Char} (h : s.drop i = l)
    (ch : Char) : find s ch i = findAux ch l i := by
  simp [find, h]

theorem drop_succ_of_drop_cons {s : wstring} {i : Nat} {c : Char} {cs : List Char}
    (h : s.drop i = c :: cs) : s.drop (i + 1) = cs := by
  have : s.drop (i + 1) = (s.drop i).drop 1 := by
    rw [List.drop_drop, Nat.add_comm]
  rw [this, h]
  rfl

theorem lt_length_of_drop_cons {s : wstring} {i : Nat} {c : Char} {cs : List Char}
    (h : s.drop i = c :: cs) : i < s.length := by
  by_contra hge
  have : s.drop i = [] := List.drop_of_length_le (by omega)
  rw [this] at h
  cases h

/-- The exit state of the loop, read through the final `if`, is described by `slashSuffixOr`:
entering the loop with `segments` and with the search result for the characters from
index `i` on selects the suffix at the `(3 - segments + 1)`-th `/` at or after `i`. -/
theorem scanLoop_result (s : wstring) :
    ∀ (l : List Char) (i segments k : Nat), s.drop i = l → segments + k = 3 →
      (match (scanLoop s segments (findAux '/' l i)).2 with
        | some position => substr s position
        | none => some ['/']) = some (slashSuffixOr k l) := by
  intro l
  induction l with
  | nil =>
    intro i segments k _ _
    simp [findAux, scanLoop, slashSuffixOr]
  | cons c cs ih =>
    intro i segments k hdrop hk
    have hnext := drop_succ_of_drop_cons hdrop
    by_cases hc : c = '/'
    · subst hc
      have hlt := lt_length_of_drop_cons hdrop
      cases k with
      | zero =>
        have hseg : segments = 3 := by omega
        subst hseg
        simp [findAux, scanLoop, slashSuffixOr, substr, hdrop, Nat.le_of_lt hlt]
      | succ k =>
        have hseg : segments ≠ 3 := by omega
        have hfind := find_eq_findAux_of_drop hnext '/'
        have := ih (i + 1) (segments + 1) k hnext (by omega)
        simp only [findAux, if_true, slashSuffixOr]
        rw [scanLoop]
        simp only [hseg, ne_eq, not_false_eq_true, if_true, hfind]
        exact this
    · have := ih (i + 1) segments k hnext hk
      simp only [findAux, hc, if_false, slashSuffixOr]
      exact this

/-- `ToVirtualPath` always returns, and its value is the suffix at the fourth `/`, or `"/"`. -/
theorem ToVirtualPath_eq_slashSuffixOr (path : wstring) :
    ToVirtualPath path = some (slashSuffixOr 3 path) := by
  have h := scanLoop_result path path 0 0 3 (by simp) (by omega)
  have hfind : find path '/' 0 = findAux '/' path 0 := find_eq_findAux_of_drop (by simp) '/'
  unfold ToVirtualPath
  rw [hfind]
  exact h

theorem slashSuffixOr_of_count_le :
    ∀ (l : List Char) (k : Nat), l.count '/' ≤ k → slashSuffixOr k l = ['/'] := by
  intro l
  induction l with
  | nil => intro k _; simp [slashSuffixOr]
  | cons c cs ih =>
    intro k h
    by_cases hc : c = '/'
    · subst hc
      simp only [List.count_cons_self] at h
      cases k with
      | zero => omega
      | succ k =>
        simp only [slashSuffixOr, if_true]
        exact ih k (by omega)
    · have hc2 : ('/' : Char) ≠ c := fun e => hc e.symm
      rw [List.count_cons_of_ne hc2] at h
      simp only [slashSuffixOr, hc, if_false]
      exact ih k h

theorem slashSuffixOr_split :
    ∀ (l : List Char) (k : Nat), k < l.count '/' →
      ∃ pre suf, l = pre ++ '/' :: suf ∧ pre.count '/' = k ∧
        slashSuffixOr k l = '/' :: suf := by
  intro l
  induction l with
  | nil => intro k h; simp at h
  | cons c cs ih =>
    intro k h
    by_cases hc : c = '/'
    · subst hc
      simp only [List.count_cons_self] at h
      cases k with
      | zero => exact ⟨[], cs, by simp, by simp, by simp [slashSuffixOr]⟩
      | succ k =>
        obtain ⟨pre, suf, h1, h2, h3⟩ := ih k (by omega)
        refine ⟨'/' :: pre, suf, by simp [h1], by simp [h2], ?_⟩
        simp only [slashSuffixOr, if_true]
        exact h3
    · have hc2 : ('/' : Char) ≠ c := fun e => hc e.symm
      rw [List.count_cons_of_ne hc2] at h
      obtain ⟨pre, suf, h1, h2, h3⟩ := ih k h
      refine ⟨c :: pre, suf, by simp [h1], ?_, ?_⟩
      · rw [List.count_cons_of_ne hc2]; exact h2
      · simp only [slashSuffixOr, hc, if_false]
        exact h3

/-- The suffix selected by `suffixFromNthSlash (k + 1)` is what follows a prefix holding
exactly `k` occurrences of `/`. -/
theorem suffixFromNthSlash_append :
    ∀ (pre suf : List Char), suffixFromNthSlash (pre.count '/' + 1) (pre ++ '/' :: suf)
      = '/' :: suf := by
  intro pre
  induction pre with
  | nil => intro suf; simp [suffixFromNthSlash]
  | cons c cs ih =>
    intro suf
    by_cases hc : c = '/'
    · subst hc
      simp only [List.count_cons_self, List.cons_append, suffixFromNthSlash, if_true]
      rw [if_neg (by omega)]
      simpa using ih suf
    · have hc2 : ('/' : Char) ≠ c := fun e => hc e.symm
      rw [List.count_cons_of_ne hc2]
      simp only [List.cons_append, suffixFromNthSlash, hc, if_false]
      exact ih suf

theorem slashSuffixOr_eq_reference (path : wstring) :
    slashSuffixOr 3 path = ToVirtualPathReference path := by
  unfold ToVirtualPathReference
  by_cases h : 4 ≤ path.count '/'
  · obtain ⟨pre, suf, h1, h2, h3⟩ := slashSuffixOr_split path 3 (by omega)
    rw [if_pos h, h3]
    have := suffixFromNthSlash_append pre suf
    rw [h2, ← h1] at this
    exact this.symm
  · rw [if_neg h]
    exact slashSuffixOr_of_count_le path 3 (by omega)

/-! ## Lemmas on the instrumented scan -/

theorem findAux_spec {s : wstring} {ch : Char} :
    ∀ (l : List Char) (i p : Nat), s.drop i = l → findAux ch l i = some p →
      i ≤ p ∧ p < s.length ∧ s[p]? = some ch := by
  intro l
  induction l with
  | nil => intro i p _ h; simp [findAux] at h
  | cons c cs ih =>
    intro i p hdrop h
    simp only [findAux] at h
    by_cases hc : c = ch
    · rw [if_pos hc] at h
      have hp : i = p := Option.some.inj h
      subst hp
      have hhead : (s.drop i).head? = some c := by rw [hdrop]; rfl
      rw [List.head?_drop] at hhead
      exact ⟨Nat.le_refl _, lt_length_of_drop_cons hdrop, by rw [hhead, hc]⟩
    · rw [if_neg hc] at h
      have := ih (i + 1) p (drop_succ_of_drop_cons hdrop) h
      exact ⟨by omega, this.2⟩

theorem find_spec {s : wstring} {ch : Char} {pos p : Nat} (h : find s ch pos = some p) :
    pos ≤ p ∧ p < s.length ∧ s[p]? = some ch :=
  findAux_spec (s.drop pos) pos p rfl h

/-- Started in a state whose position, when present, is an index holding `/`, and given a
budget covering the distance of `segments` to 3, the instrumented loop exits in the state
computed by `scanLoop`, after at most `3 - segments` iterations, with every search start
within the length, and with an exit position that is again an index holding `/`. -/
theorem scanLoopTrace_spec (s : wstring) :
    ∀ (budget segments : Nat) (position : Option Nat),
      segments ≤ 3 → 3 ≤ segments + budget →
      (∀ p, position = some p → p < s.length ∧ s[p]? = some '/') →
      ∃ exit starts, scanLoopTrace s budget segments position = some (exit, starts) ∧
        exit = scanLoop s segments position ∧
        starts.length + segments ≤ 3 ∧
        (∀ start ∈ starts, start ≤ s.length) ∧
        (∀ p, exit.2 = some p → p < s.length ∧ s[p]? = some '/') := by
  intro budget
  induction budget with
  | zero =>
    intro segments position hle hge hpos
    have hseg : segments = 3 := by omega
    subst hseg
    cases position with
    | none =>
      refine ⟨(3, none), [], by simp [scanLoopTrace], by simp [scanLoop], by simp, by simp, ?_⟩
      intro p hp
      cases hp
    | some p =>
      refine ⟨(3, some p), [], by simp [scanLoopTrace], by simp [scanLoop], by simp,
        by simp, ?_⟩
      intro q hq
      exact hpos q hq
  | succ budget ih =>
    intro segments position hle hge hpos
    cases position with
    | none =>
      refine ⟨(segments, none), [], by simp [scanLoopTrace], by simp [scanLoop], by simpa using hle,
        by simp, ?_⟩
      intro p hp
      cases hp
    | some p =>
      by_cases hseg : segments = 3
      · subst hseg
        refine ⟨(3, some p), [], by simp [scanLoopTrace], by simp [scanLoop], by simp,
          by simp, ?_⟩
        intro q hq
        exact hpos q hq
      · have hp := hpos p rfl
        obtain ⟨exit, starts, hrun, hexit, hlen, hstarts, hvalid⟩ :=
          ih (segments + 1) (find s '/' (p + 1)) (by omega) (by omega)
            (fun q hq => (find_spec hq).2)
        refine ⟨exit, (p + 1) :: starts, ?_, ?_, ?_, ?_, hvalid⟩
        · simp only [scanLoopTrace, ne_eq, hseg, not_false_eq_true, if_true, hrun, Option.map_some']
        · rw [scanLoop]
          simp only [ne_eq, hseg, not_false_eq_true, if_true]
          exact hexit
        · simp only [List.length_cons]
          omega
        · intro start hstart
          rcases List.mem_cons.mp hstart with h | h
          · omega
          · exact hstarts start h

/-- A run of the instrumented loop on `a/b/c/d/e`: three iterations, searching from the
indices 2, 4 and 6, and exiting at index 7. -/
theorem scanLoopTrace_example :
    scanLoopTrace "a/b/c/d/e".toList 3 0 (find "a/b/c/d/e".toList '/' 0)
      = some ((3, some 7), [2, 4, 6]) := by
  decide

/-! ## Lemmas on the version text and on the environment -/

theorem repr_toList_eq_decimal (n : Nat) : (Nat.repr n).toList = decimal n :=
  rfl

theorem streamInt_castInt_of_lt {n : Nat} (h : n < 2 ^ 31) :
    streamInt (castInt n) = decimal n := by
  have hmod : n % 2 ^ 32 = n := Nat.mod_eq_of_lt (by omega)
  have hcast : castInt n = (n : Int) := by
    unfold castInt
    rw [hmod, if_pos h]
  have hnonneg : ¬ ((n : Int) < 0) := by omega
  rw [hcast]
  unfold streamInt
  rw [if_neg hnonneg, Int.natAbs_ofNat]

theorem setEnvironmentVariable_apply (lpName lpValue : wstring) (env : Environment)
    (k : wstring) :
    SetEnvironmentVariable lpName lpValue env k = if k = lpName then some lpValue else env k :=
  rfl

/-- The publisher always completes, and its result is the seven writes applied in order,
the last one storing the value of `ToVirtualPath`. -/
theorem setApplicationEnvironmentVariables_eq (ctx : IHttpContext) (v : Nat)
    (env : Environment) :
    ∃ virtualPath, ToVirtualPath ctx.GetApplication.GetAppConfigPath = some virtualPath ∧
      SetApplicationEnvironmentVariables ctx v env = some
        (SetEnvironmentVariable "ANCM_APPPLICATION_VIRTUAL_PATH".toList virtualPath
          (SetEnvironmentVariable "ANCM_APPLICATION_PHYSICAL_PATH".toList
            ctx.GetApplication.GetApplicationPhysicalPath
            (SetEnvironmentVariable "ANCM_APPLICATION_ID".toList
              ctx.GetApplication.GetApplicationId
              (SetEnvironmentVariable "ANCM_APP_CONFIG_PATH".toList
                ctx.GetApplication.GetAppConfigPath
                (SetEnvironmentVariable "ANCM_SITE_ID".toList (to_wstring ctx.GetSite.GetSiteId)
                  (SetEnvironmentVariable "ANCM_SITE_NAME".toList ctx.GetSite.GetSiteName
                    (SetEnvironmentVariable "ANCM_IIS_VERSION".toList (GetIISVersion v)
                      env))))))) := by
  refine ⟨_, ToVirtualPath_eq_slashSuffixOr _, ?_⟩
  simp only [SetApplicationEnvironmentVariables, ToVirtualPath_eq_slashSuffixOr]

/-- The value of `ToVirtualPath` on the config path of the end-to-end example. -/
theorem ToVirtualPath_endToEnd :
    ToVirtualPath endToEndContext.GetApplication.GetAppConfigPath = some "/MyApp".toList := by
  rw [ToVirtualPath_eq_slashSuffixOr]
  decide

/-! ## Lemmas on decimal text -/

theorem digitChar_spec : ∀ k, k < 10 →
    (Nat.digitChar k).isDigit = true ∧ (Nat.digitChar k).toNat - '0'.toNat = k ∧
      Nat.digitChar k ≠ '.' := by
  decide

theorem parseDecimalAux_append_singleton (d : Char) (hd : d.isDigit = true) :
    ∀ (pre : List Char) (acc n : Nat), parseDecimalAux acc pre = some n →
      parseDecimalAux acc (pre ++ [d]) = some (n * 10 + (d.toNat - '0'.toNat)) := by
  intro pre
  induction pre with
  | nil =>
    intro acc n h
    simp only [parseDecimalAux] at h
    have hn : acc = n := Option.some.inj h
    subst hn
    simp [parseDecimalAux, hd]
  | cons c cs ih =>
    intro acc n h
    simp only [parseDecimalAux] at h
    by_cases hc : c.isDigit = true
    · rw [if_pos hc] at h
      simp only [List.cons_append, parseDecimalAux, hc, if_true]
      exact ih _ _ h
    · rw [if_neg hc] at h
      cases h

/-- The digits produced by `Nat.toDigitsCore 10` in front of the accumulator `ds` are a
non-empty run of decimal digits, free of `.`, that reads back as the number. -/
theorem toDigitsCore_spec :
    ∀ (fuel n : Nat) (ds : List Char), n < fuel →
      ∃ pre, Nat.toDigitsCore 10 fuel n ds = pre ++ ds ∧ pre ≠ [] ∧
        parseDecimalAux 0 pre = some n ∧ '.' ∉ pre := by
  intro fuel
  induction fuel with
  | zero => intro n ds h; omega
  | succ fuel ih =>
    intro n ds h
    have hlt : n % 10 < 10 := Nat.mod_lt _ (by omega)
    obtain ⟨hdig, hval, hdot⟩ := digitChar_spec (n % 10) hlt
    unfold Nat.toDigitsCore
    by_cases hq : n / 10 = 0
    · have hn : n % 10 = n := by omega
      refine ⟨[Nat.digitChar (n % 10)], by simp [hq], by simp, ?_, ?_⟩
      · simp only [parseDecimalAux, hdig, if_true, hval]
        simp [hn]
      · simp only [List.mem_singleton]
        exact fun e => hdot e.symm
    · obtain ⟨pre, h1, h2, h3, h4⟩ := ih (n / 10) (Nat.digitChar (n % 10) :: ds) (by omega)
      refine ⟨pre ++ [Nat.digitChar (n % 10)], ?_, by simp, ?_, ?_⟩
      · simp only [hq, if_false]
        rw [h1]
        simp
      · rw [parseDecimalAux_append_singleton _ hdig pre 0 (n / 10) h3, hval]
        congr 1
        omega
      · simp only [List.mem_append, List.mem_singleton, not_or]
        exact ⟨h4, fun e => hdot e.symm⟩

theorem decimal_spec (n : Nat) :
    decimal n ≠ [] ∧ parseDecimal (decimal n) = some n ∧ '.' ∉ decimal n := by
  obtain ⟨pre, h1, h2, h3, h4⟩ := toDigitsCore_spec (n + 1) n [] (by omega)
  have hdec : decimal n = pre := by
    unfold decimal Nat.toDigits
    rw [h1, List.append_nil]
  rw [hdec]
  refine ⟨h2, ?_, h4⟩
  cases pre with
  | nil => exact absurd rfl h2
  | cons c cs => exact h3

theorem takeWhile_ne_dot_append :
    ∀ (a b : List Char), '.' ∉ a →
      (a ++ '.' :: b).takeWhile (fun c => c != '.') = a ∧
      (a ++ '.' :: b).dropWhile (fun c => c != '.') = '.' :: b := by
  intro a
  induction a with
  | nil => intro b _; simp [List.takeWhile, List.dropWhile]
  | cons c cs ih =>
    intro b h
    simp only [List.mem_cons, not_or] at h
    have hc : (c != '.') = true := by
      simp only [bne_iff_ne, ne_eq]
      exact fun e => h.1 e.symm
    obtain ⟨h1, h2⟩ := ih b h.2
    simp only [List.cons_append, List.takeWhile_cons, List.dropWhile_cons, hc, if_true]
    exact ⟨by rw [h1], h2⟩

/-- The version text of a 32-bit version is the digits of the two halves around one `.`. -/
theorem GetIISVersion_eq_decimal (v : Nat) (h : v < 2 ^ 32) :
    GetIISVersion v = decimal (v >>> 16) ++ '.' :: decimal (v &&& 0xffff) := by
  have hmajor : v >>> 16 < 2 ^ 31 := by
    rw [Nat.shiftRight_eq_div_pow]
    omega
  have hminor : v &&& 0xffff < 2 ^ 31 :=
    Nat.lt_of_le_of_lt Nat.and_le_right (by norm_num)
  simp only [GetIISVersion, streamInt_castInt_of_lt hmajor, streamInt_castInt_of_lt hminor,
    List.append_assoc, List.singleton_append]

theorem GetIISVersion_parts (v : Nat) (h : v < 2 ^ 32) :
    (GetIISVersion v).count '.' = 1 ∧
    parseDecimal (textBeforeDot (GetIISVersion v)) = some (v >>> 16) ∧
    parseDecimal (textAfterDot (GetIISVersion v)) = some (v &&& 0xFFFF) := by
  obtain ⟨_, hmajor, hdotMajor⟩ := decimal_spec (v >>> 16)
  obtain ⟨_, hminor, hdotMinor⟩ := decimal_spec (v &&& 0xffff)
  obtain ⟨htake, hdrop⟩ :=
    takeWhile_ne_dot_append (decimal (v >>> 16)) (decimal (v &&& 0xffff)) hdotMajor
  rw [GetIISVersion_eq_decimal v h]
  refine ⟨?_, ?_, ?_⟩
  · rw [List.count_append, List.count_cons_self, List.count_eq_zero.mpr hdotMajor,
      List.count_eq_zero.mpr hdotMinor]
  · unfold textBeforeDot
    rw [htake]
    exact hmajor
  · unfold textAfterDot
    rw [hdrop]
    exact hminor

theorem eq_of_halves_eq (v w : Nat) (hmajor : w >>> 16 = v >>> 16)
    (hminor : w &&& 0xffff = v &&& 0xffff) : w = v := by
  have hand : ∀ x : Nat, x &&& 0xffff = x % 2 ^ 16 := fun x =>
    Nat.and_pow_two_sub_one_eq_mod x 16
  rw [hand, hand] at hminor
  rw [Nat.shiftRight_eq_div_pow, Nat.shiftRight_eq_div_pow] at hmajor
  omega

/-! ## Properties of `ToVirtualPath` -/

/-- C1 (as amended): for every configuration path with at least four `/` characters,
`ToVirtualPath` returns the suffix of the path that begins at its fourth `/` character:
the path splits as `pre ++ "/" ++ suf` with exactly three `/` in `pre`, and the result is
`"/" ++ suf`. -/
theorem ToVirtualPath_suffix_at_fourth_slash (path : wstring) (h : 4 ≤ path.count '/') :
    ∃ pre suf, path = pre ++ '/' :: suf ∧ pre.count '/' = 3 ∧
      ToVirtualPath path = some ('/' :: suf) := by
  obtain ⟨pre, suf, h1, h2, h3⟩ := slashSuffixOr_split path 3 (by omega)
  exact ⟨pre, suf, h1, h2, by rw [ToVirtualPath_eq_slashSuffixOr, h3]⟩

/-- Witness for C1 (as amended) at `MACHINE/WEBROOT/APPHOST/Default Web Site/MyApp`. -/
theorem ToVirtualPath_suffix_at_fourth_slash_witness :
    4 ≤ ("MACHINE/WEBROOT/APPHOST/Default Web Site/MyApp".toList).count '/' ∧
    ∃ pre suf, "MACHINE/WEBROOT/APPHOST/Default Web Site/MyApp".toList = pre ++ '/' :: suf ∧
      pre.count '/' = 3 ∧
      ToVirtualPath "MACHINE/WEBROOT/APPHOST/Default Web Site/MyApp".toList
        = some ('/' :: suf) :=
  ⟨by decide, ToVirtualPath_suffix_at_fourth_slash _ (by decide)⟩

/-- Counterexample to C1 as stated: `MACHINE/WEBROOT/APPHOST/Default Web Site/MyApp` has at
least three `/` characters and its suffix from the third `/` is `/Default Web Site/MyApp`,
yet `ToVirtualPath` returns `/MyApp`. -/
theorem ToVirtualPath_third_slash_counterexample :
    3 ≤ ("MACHINE/WEBROOT/APPHOST/Default Web Site/MyApp".toList).count '/' ∧
    suffixFromNthSlash 3 "MACHINE/WEBROOT/APPHOST/Default Web Site/MyApp".toList
      = "/Default Web Site/MyApp".toList ∧
    ToVirtualPath "MACHINE/WEBROOT/APPHOST/Default Web Site/MyApp".toList
      = some "/MyApp".toList ∧
    ToVirtualPath "MACHINE/WEBROOT/APPHOST/Default Web Site/MyApp".toList
      ≠ some "/Default Web Site/MyApp".toList := by
  refine ⟨by decide, by decide, ?_, ?_⟩
  · rw [ToVirtualPath_eq_slashSuffixOr]; decide
  · rw [ToVirtualPath_eq_slashSuffixOr]; decide

/-- C3: for every configuration path with fewer than three `/` characters (the empty path
and paths without `/` included), `ToVirtualPath` returns exactly `"/"`. -/
theorem ToVirtualPath_fewer_than_three_slashes (path : wstring) (h : path.count '/' < 3) :
    ToVirtualPath path = some ['/'] := by
  rw [ToVirtualPath_eq_slashSuffixOr, slashSuffixOr_of_count_le path 3 (by omega)]

/-- Witness for C3 at `a/b/c`, at `no-slashes-here` and at the empty path. -/
theorem ToVirtualPath_fewer_than_three_slashes_witness :
    (("a/b/c".toList).count '/' < 3 ∧ ToVirtualPath "a/b/c".toList = some "/".toList) ∧
    (("no-slashes-here".toList).count '/' < 3 ∧
      ToVirtualPath "no-slashes-here".toList = some "/".toList) ∧
    (([] : wstring).count '/' < 3 ∧ ToVirtualPath [] = some "/".toList) :=
  ⟨⟨by decide, ToVirtualPath_fewer_than_three_slashes _ (by decide)⟩,
   ⟨by decide, ToVirtualPath_fewer_than_three_slashes _ (by decide)⟩,
   ⟨by decide, ToVirtualPath_fewer_than_three_slashes _ (by decide)⟩⟩

/-- C6: for every configuration path, `ToVirtualPath` returns a non-empty text whose first
character is `/`. -/
theorem ToVirtualPath_starts_with_slash (path : wstring) :
    ∃ rest, ToVirtualPath path = some ('/' :: rest) := by
  rw [ToVirtualPath_eq_slashSuffixOr]
  by_cases h : 3 < path.count '/'
  · obtain ⟨_, suf, _, _, h3⟩ := slashSuffixOr_split path 3 h
    exact ⟨suf, by rw [h3]⟩
  · exact ⟨[], by rw [slashSuffixOr_of_count_le path 3 (by omega)]⟩

/-- C8: for every configuration path with exactly three `/` characters whose last character
is that third `/`, `ToVirtualPath` returns exactly `"/"`. -/
theorem ToVirtualPath_three_slashes_trailing (path : wstring) (h : path.count '/' = 3)
    (_hlast : path.getLast? = some '/') : ToVirtualPath path = some ['/'] := by
  rw [ToVirtualPath_eq_slashSuffixOr, slashSuffixOr_of_count_le path 3 (by omega)]

/-- Witness for C8 at `a/b/c/`. -/
theorem ToVirtualPath_three_slashes_trailing_witness :
    ("a/b/c/".toList).count '/' = 3 ∧ ("a/b/c/".toList).getLast? = some '/' ∧
    ToVirtualPath "a/b/c/".toList = some "/".toList :=
  ⟨by decide, by decide, ToVirtualPath_three_slashes_trailing _ (by decide) (by decide)⟩

/-- C9: `ToVirtualPath` equals the reference definition on every configuration path: with at
least four `/` characters the result is the suffix beginning at the fourth `/`, and with
zero to three `/` characters the result is exactly `"/"`. -/
theorem ToVirtualPath_eq_reference (path : wstring) :
    ToVirtualPath path = some (ToVirtualPathReference path) := by
  rw [ToVirtualPath_eq_slashSuffixOr, slashSuffixOr_eq_reference]

/-! ## Properties of `GetIISVersion` -/

/-- C2: for every 32-bit unsigned server version `v`, `GetIISVersion` returns exactly the
unpadded decimal rendering of `v >> 16`, a single `.`, and the unpadded decimal rendering
of `v & 0xFFFF`. -/
theorem GetIISVersion_eq (v : Nat) (h : v < 2 ^ 32) :
    GetIISVersion v
      = (Nat.repr (v >>> 16)).toList ++ '.' :: (Nat.repr (v &&& 0xFFFF)).toList := by
  have hmajor : v >>> 16 < 2 ^ 31 := by
    rw [Nat.shiftRight_eq_div_pow]
    omega
  have hminor : v &&& 0xffff < 2 ^ 31 :=
    Nat.lt_of_le_of_lt Nat.and_le_right (by norm_num)
  simp only [GetIISVersion, streamInt_castInt_of_lt hmajor, streamInt_castInt_of_lt hminor,
    repr_toList_eq_decimal, List.append_assoc, List.singleton_append]

/-- Witness for C2 at `v = 0x000A0042`, whose text is `10.66`. -/
theorem GetIISVersion_eq_witness :
    0x000A0042 < 2 ^ 32 ∧
    GetIISVersion 0x000A0042
      = (Nat.repr (0x000A0042 >>> 16)).toList ++ '.' :: (Nat.repr (0x000A0042 &&& 0xFFFF)).toList ∧
    (Nat.repr (0x000A0042 >>> 16)).toList ++ '.' :: (Nat.repr (0x000A0042 &&& 0xFFFF)).toList
      = "10.66".toList :=
  ⟨by decide, GetIISVersion_eq 0x000A0042 (by decide), by decide⟩

/-! ## Properties of `SetApplicationEnvironmentVariables` -/

/-- C4: for every request context, server version `v` and initial environment,
`SetApplicationEnvironmentVariables` completes and the resulting environment maps
`ANCM_IIS_VERSION` to `GetIISVersion v`, `ANCM_SITE_NAME` to the site name, `ANCM_SITE_ID`
to the unpadded decimal text of the site id, `ANCM_APP_CONFIG_PATH`, `ANCM_APPLICATION_ID`
and `ANCM_APPLICATION_PHYSICAL_PATH` to the config path, application id and physical path
verbatim, and `ANCM_APPPLICATION_VIRTUAL_PATH` to `ToVirtualPath` of the config path. -/
theorem SetApplicationEnvironmentVariables_values (ctx : IHttpContext) (v : Nat)
    (env : Environment) :
    ∃ env' virtualPath,
      SetApplicationEnvironmentVariables ctx v env = some env' ∧
      ToVirtualPath ctx.GetApplication.GetAppConfigPath = some virtualPath ∧
      env' "ANCM_IIS_VERSION".toList = some (GetIISVersion v) ∧
      env' "ANCM_SITE_NAME".toList = some ctx.GetSite.GetSiteName ∧
      env' "ANCM_SITE_ID".toList = some (Nat.repr ctx.GetSite.GetSiteId).toList ∧
      env' "ANCM_APP_CONFIG_PATH".toList = some ctx.GetApplication.GetAppConfigPath ∧
      env' "ANCM_APPLICATION_ID".toList = some ctx.GetApplication.GetApplicationId ∧
      env' "ANCM_APPLICATION_PHYSICAL_PATH".toList
        = some ctx.GetApplication.GetApplicationPhysicalPath ∧
      env' "ANCM_APPPLICATION_VIRTUAL_PATH".toList = some virtualPath := by
  obtain ⟨virtualPath, hvp, hrun⟩ := setApplicationEnvironmentVariables_eq ctx v env
  refine ⟨_, virtualPath, hrun, hvp, ?_, ?_, ?_, ?_, ?_, ?_, ?_⟩ <;>
    simp [setEnvironmentVariable_apply, to_wstring, decimal, Nat.repr, List.asString]

/-- C5: for every request context, server version and initial environment,
`SetApplicationEnvironmentVariables` completes and leaves the value (or absence) of every
name other than the seven written names unchanged; in particular the correctly spelled
`ANCM_APPLICATION_VIRTUAL_PATH` is not written. -/
theorem SetApplicationEnvironmentVariables_frame (ctx : IHttpContext) (v : Nat)
    (env : Environment) :
    ∃ env', SetApplicationEnvironmentVariables ctx v env = some env' ∧
      (∀ k, k ∉ ancmKeys → env' k = env k) ∧
      env' "ANCM_APPLICATION_VIRTUAL_PATH".toList = env "ANCM_APPLICATION_VIRTUAL_PATH".toList := by
  obtain ⟨virtualPath, _, hrun⟩ := setApplicationEnvironmentVariables_eq ctx v env
  refine ⟨_, hrun, ?_, ?_⟩
  · intro k hk
    simp only [ancmKeys, List.mem_cons, List.mem_singleton, List.not_mem_nil, or_false,
      not_or] at hk
    obtain ⟨h1, h2, h3, h4, h5, h6, h7⟩ := hk
    simp only [setEnvironmentVariable_apply, h1, h2, h3, h4, h5, h6, h7, if_false]
  · simp [setEnvironmentVariable_apply]

/-- C7 (as amended): end-to-end, for the context with site name `Default Web Site`, site id 1,
application id `APP1`, config path `MACHINE/WEBROOT/APPHOST/Default Web Site/MyApp`,
physical path `C:\inetpub\wwwroot\MyApp` and server version `0x000A0042`, and for every
initial environment, the publisher completes and the seven variables hold `10.66`,
`Default Web Site`, `1`, the config path, `APP1`, the physical path, and `/MyApp`. -/
theorem SetApplicationEnvironmentVariables_endToEnd (env : Environment) :
    ∃ env', SetApplicationEnvironmentVariables endToEndContext 0x000A0042 env = some env' ∧
      env' "ANCM_IIS_VERSION".toList = some "10.66".toList ∧
      env' "ANCM_SITE_NAME".toList = some "Default Web Site".toList ∧
      env' "ANCM_SITE_ID".toList = some "1".toList ∧
      env' "ANCM_APP_CONFIG_PATH".toList
        = some "MACHINE/WEBROOT/APPHOST/Default Web Site/MyApp".toList ∧
      env' "ANCM_APPLICATION_ID".toList = some "APP1".toList ∧
      env' "ANCM_APPLICATION_PHYSICAL_PATH".toList = some "C:\\inetpub\\wwwroot\\MyApp".toList ∧
      env' "ANCM_APPPLICATION_VIRTUAL_PATH".toList = some "/MyApp".toList := by
  obtain ⟨vp, hvp, hrun⟩ := setApplicationEnvironmentVariables_eq endToEndContext 0x000A0042 env
  have hval : vp = "/MyApp".toList := Option.some.inj (hvp.symm.trans ToVirtualPath_endToEnd)
  subst hval
  have hversion : GetIISVersion 0x000A0042 = "10.66".toList := by decide
  have hid : to_wstring 1 = ['1'] := by decide
  refine ⟨_, hrun, ?_, ?_, ?_, ?_, ?_, ?_, ?_⟩ <;>
    simp [setEnvironmentVariable_apply, hversion, hid, endToEndContext]

/-- Counterexample to C7 as stated: started in the empty environment, the end-to-end run does
not leave `ANCM_APPPLICATION_VIRTUAL_PATH` holding `/Default Web Site/MyApp`. -/
theorem SetApplicationEnvironmentVariables_endToEnd_counterexample :
    ¬ ∃ env', SetApplicationEnvironmentVariables endToEndContext 0x000A0042 emptyEnvironment
        = some env' ∧
      env' "ANCM_APPPLICATION_VIRTUAL_PATH".toList = some "/Default Web Site/MyApp".toList := by
  rintro ⟨env', hrun', hkey⟩
  obtain ⟨vp, hvp, hrun⟩ :=
    setApplicationEnvironmentVariables_eq endToEndContext 0x000A0042 emptyEnvironment
  have hval : vp = "/MyApp".toList := Option.some.inj (hvp.symm.trans ToVirtualPath_endToEnd)
  subst hval
  have henv := Option.some.inj (hrun'.symm.trans hrun)
  subst henv
  simp only [setEnvironmentVariable_apply, if_true] at hkey
  exact absurd hkey (by decide)

/-- C10: publishing overwrites rather than accumulates. For every request context and server
version, the resulting environments agree on the seven written names for any two initial
environments, and running the publisher a second time on its own result yields that same
result. -/
theorem SetApplicationEnvironmentVariables_overwrites (ctx : IHttpContext) (v : Nat) :
    (∀ env₁ env₂ : Environment, ∃ out₁ out₂,
      SetApplicationEnvironmentVariables ctx v env₁ = some out₁ ∧
      SetApplicationEnvironmentVariables ctx v env₂ = some out₂ ∧
      ∀ k, k ∈ ancmKeys → out₁ k = out₂ k) ∧
    (∀ env : Environment, ∃ out,
      SetApplicationEnvironmentVariables ctx v env = some out ∧
      SetApplicationEnvironmentVariables ctx v out = some out) := by
  constructor
  · intro env₁ env₂
    obtain ⟨vp₁, hvp₁, hrun₁⟩ := setApplicationEnvironmentVariables_eq ctx v env₁
    obtain ⟨vp₂, hvp₂, hrun₂⟩ := setApplicationEnvironmentVariables_eq ctx v env₂
    have hvp : vp₂ = vp₁ := Option.some.inj (hvp₂.symm.trans hvp₁)
    subst hvp
    refine ⟨_, _, hrun₁, hrun₂, ?_⟩
    intro k hk
    simp only [ancmKeys, List.mem_cons, List.mem_singleton, List.not_mem_nil, or_false] at hk
    rcases hk with h | h | h | h | h | h | h <;> subst h <;>
      simp [setEnvironmentVariable_apply]
  · intro env
    obtain ⟨vp₁, hvp₁, hrun₁⟩ := setApplicationEnvironmentVariables_eq ctx v env
    refine ⟨_, hrun₁, ?_⟩
    obtain ⟨vp₂, hvp₂, hrun₂⟩ := setApplicationEnvironmentVariables_eq ctx v
      (SetEnvironmentVariable "ANCM_APPPLICATION_VIRTUAL_PATH".toList vp₁
          (SetEnvironmentVariable "ANCM_APPLICATION_PHYSICAL_PATH".toList
            ctx.GetApplication.GetApplicationPhysicalPath
            (SetEnvironmentVariable "ANCM_APPLICATION_ID".toList
              ctx.GetApplication.GetApplicationId
              (SetEnvironmentVariable "ANCM_APP_CONFIG_PATH".toList
                ctx.GetApplication.GetAppConfigPath
                (SetEnvironmentVariable "ANCM_SITE_ID".toList (to_wstring ctx.GetSite.GetSiteId)
                  (SetEnvironmentVariable "ANCM_SITE_NAME".toList ctx.GetSite.GetSiteName
                    (SetEnvironmentVariable "ANCM_IIS_VERSION".toList (GetIISVersion v)
                      env)))))))
    have hvp : vp₂ = vp₁ := Option.some.inj (hvp₂.symm.trans hvp₁)
    subst hvp
    rw [hrun₂]
    congr 1
    funext k
    simp only [setEnvironmentVariable_apply]
    split_ifs <;> rfl

/-! ## Safety of the scan -/

/-- C11: for every configuration path, the scan in `ToVirtualPath` exits after at most three
loop iterations (a budget of three suffices and the log has at most three entries), every
search start index `position + 1` it uses is at most the length of the path, and whenever
the exit position is present (the substring branch) it is a valid index of the path holding
`/`, so `substr` succeeds there and `ToVirtualPath` never raises the out-of-range error. -/
theorem ToVirtualPath_scan_safe (path : wstring) :
    ∃ exit starts,
      scanLoopTrace path 3 0 (find path '/' 0) = some (exit, starts) ∧
      exit = scanLoop path 0 (find path '/' 0) ∧
      starts.length ≤ 3 ∧
      (∀ start ∈ starts, start ≤ path.length) ∧
      (∀ p, exit.2 = some p →
        p < path.length ∧ path[p]? = some '/' ∧ substr path p = some (path.drop p)) ∧
      ToVirtualPath path ≠ none := by
  obtain ⟨exit, starts, hrun, hexit, hlen, hstarts, hvalid⟩ :=
    scanLoopTrace_spec path 3 0 (find path '/' 0) (by omega) (by omega)
      (fun q hq => (find_spec hq).2)
  refine ⟨exit, starts, hrun, hexit, by omega, hstarts, ?_, ?_⟩
  · intro p hp
    obtain ⟨h1, h2⟩ := hvalid p hp
    refine ⟨h1, h2, ?_⟩
    unfold substr
    rw [if_pos (Nat.le_of_lt h1)]
  · rw [ToVirtualPath_eq_slashSuffixOr]
    exact Option.some_ne_none _

/-! ## Unambiguity of the version text -/

/-- C12: for every 32-bit unsigned `v`, the text of `GetIISVersion v` holds exactly one `.`,
the digits before it parse to `v >> 16` and the digits after it parse to `v & 0xFFFF`; hence
any 32-bit version with the same text equals `v` (`GetIISVersion` is injective on 32-bit
versions). -/
theorem GetIISVersion_unambiguous (v : Nat) (h : v < 2 ^ 32) :
    (GetIISVersion v).count '.' = 1 ∧
    parseDecimal (textBeforeDot (GetIISVersion v)) = some (v >>> 16) ∧
    parseDecimal (textAfterDot (GetIISVersion v)) = some (v &&& 0xFFFF) ∧
    ∀ w, w < 2 ^ 32 → GetIISVersion w = GetIISVersion v → w = v := by
  obtain ⟨hcount, hbefore, hafter⟩ := GetIISVersion_parts v h
  refine ⟨hcount, hbefore, hafter, ?_⟩
  intro w hw heq
  obtain ⟨_, hbefore', hafter'⟩ := GetIISVersion_parts w hw
  rw [heq, hbefore] at hbefore'
  rw [heq, hafter] at hafter'
  exact eq_of_halves_eq v w (Option.some.inj hbefore').symm (Option.some.inj hafter').symm

/-- Witness for C12 at `v = 0x000A0042`, whose text `10.66` parses to 10 and 66. -/
theorem GetIISVersion_unambiguous_witness :
    0x000A0042 < 2 ^ 32 ∧
    ((GetIISVersion 0x000A0042).count '.' = 1 ∧
      parseDecimal (textBeforeDot (GetIISVersion 0x000A0042)) = some (0x000A0042 >>> 16) ∧
      parseDecimal (textAfterDot (GetIISVersion 0x000A0042)) = some (0x000A0042 &&& 0xFFFF) ∧
      ∀ w, w < 2 ^ 32 → GetIISVersion w = GetIISVersion 0x000A0042 → w = 0x000A0042) ∧
    parseDecimal (textBeforeDot "10.66".toList) = some 10 ∧
    parseDecimal (textAfterDot "10.66".toList) = some 66 :=
  ⟨by decide, GetIISVersion_unambiguous 0x000A0042 (by decide), by decide, by decide⟩

end ModuleEnvironment
